import Mathlib

/-!
A shallow embedding of the in-memory filesystem implemented in `fs.h` /
`fs.c` (src/unnamed/part_004, final revision), together with proofs about
its operations.

Modelling conventions:
* C strings become `List Char` (one `Char` per byte; all names and paths in
  this code base are ASCII).
* `time_t` timestamps become `Nat`; each operation takes the current time
  `now` as an explicit argument (the C calls `time(NULL)` during the
  operation; all calls within one operation yield the same instant).
* Node identity: the C works with `node_t *` pointers linked into a tree
  whose parent pointers always invert the child arrays.  We represent the
  tree as a pure value and a node by its path of child indices from the
  root; `parent` is `List.dropLast`, and the C's pointer-equality searches
  become index arithmetic on that path (a pointer uniquely identifies the
  slot the walk descended through).
* A file's `data` buffer is a `List Nat` of bytes whose length is the
  allocated capacity `cap` (the C keeps `cap == allocated length` as an
  invariant by construction); `size` is kept separately, as in the C.
* Allocation (`calloc`/`realloc`) never fails in the model; the C's
  out-of-memory paths are the only behaviour dropped.
* `fd_table` is the 32-entry descriptor table; a stored `node_t *` becomes
  the node's path.
-/

def NAME_MAX : Nat := 32

def MAX_CHILDREN : Nat := 64

def MAX_OPEN_FILES : Nat := 32

def ATTR_READONLY : Nat := 0x02

def O_RDONLY : Nat := 0x01

def O_WRONLY : Nat := 0x02

def O_RDWR : Nat := 0x03

/-- Metadata stored in every `node_t`: the three timestamps and the
attribute bitset (a `uint8_t` in C). -/
structure NodeMeta where
  created : Nat
  modified : Nat
  accessed : Nat
  attributes : Nat
deriving DecidableEq

/-- `node_t`: a directory (name, metadata, ordered children) or a file
(name, metadata, current size, data buffer of `cap` bytes). -/
inductive Node where
  | dir (nm : List Char) (md : NodeMeta) (children : List Node)
  | file (nm : List Char) (md : NodeMeta) (size : Nat) (data : List Nat)

def Node.nameOf : Node → List Char
  | .dir nm _ _ => nm
  | .file nm _ _ _ => nm

def Node.mdOf : Node → NodeMeta
  | .dir _ md _ => md
  | .file _ md _ _ => md

def Node.attrsOf (n : Node) : Nat := n.mdOf.attributes

def Node.isDir : Node → Bool
  | .dir _ _ _ => true
  | .file _ _ _ _ => false

def Node.isFile : Node → Bool
  | .dir _ _ _ => false
  | .file _ _ _ _ => true

/-- The children array restricted to `child_count` entries (empty for a
file node, whose `child_count` is zero). -/
def Node.childrenOf : Node → List Node
  | .dir _ _ cs => cs
  | .file _ _ _ _ => []

def Node.childNames (n : Node) : List (List Char) := n.childrenOf.map Node.nameOf

/-- Dereference a node path: follow child indices from `n`. -/
def getNode : Node → List Nat → Option Node
  | n, [] => some n
  | n, i :: p => (n.childrenOf[i]?).bind (fun c => getNode c p)

/-- Apply `h` to the node at path `p` (identity when the path is invalid);
the model's counterpart of mutating through a `node_t *`. -/
def updAt (n : Node) (p : List Nat) (h : Node → Node) : Node :=
  match p with
  | [] => h n
  | i :: p' =>
    match n with
    | .dir nm md cs =>
      match cs[i]? with
      | some c => .dir nm md (cs.set i (updAt c p' h))
      | none => n
    | .file nm md sz d => .file nm md sz d

/-- One slot of the descriptor table (`file_descriptor_t`): the stored
`node_t *` becomes the node's path. -/
structure FDEnt where
  node : List Nat
  offset : Nat
  flags : Nat
  inUse : Bool
deriving DecidableEq

/-- The process-wide filesystem state: `root`, the current working
directory `cwd` (a path, standing for the C's weak pointer), and the
descriptor table. -/
structure FS where
  root : Node
  cwd : List Nat
  fds : List FDEnt

/-- `fs_init` plus the zero-initialised static `fd_table`: the root is a
directory with empty name, no children, cleared attributes, all
timestamps `now`; `cwd` is the root. -/
def fs_init (now : Nat) : FS :=
  ⟨.dir [] ⟨now, now, now, 0⟩ [], [], List.replicate MAX_OPEN_FILES ⟨[], 0, 0, false⟩⟩

/-- `strtok_r(tmp, "/", ...)` semantics: the maximal nonempty runs of
non-`'/'` bytes, in order. -/
def splitAux (cur : List Char) : List Char → List (List Char)
  | [] => if cur = [] then [] else [cur.reverse]
  | c :: rest =>
    if c = '/' then
      if cur = [] then splitAux [] rest else cur.reverse :: splitAux [] rest
    else splitAux (c :: cur) rest

def splitPath (p : List Char) : List (List Char) := splitAux [] p

/-- `dir_find(dir, name)` returning the index of the found child instead
of the pointer: linear scan, exact name match (the C's
`strncmp(..., NAME_MAX)` on names that are at most `NAME_MAX` bytes),
`none` when `dir` is missing or not a directory. -/
def dir_find (root : Node) (cur : List Nat) (nm : List Char) : Option Nat :=
  match getNode root cur with
  | some n => if n.isDir then n.childNames.findIdx? (· = nm) else none
  | none => none

/-- The segment-walking loop of `walk_from`, after tokenisation.  `cur` is
the current node (as a path), `wp` is `want_parent`.  Returns the resolved
node path, plus — in `want_parent` mode, when the final segment was an
ordinary name — the leaf written to `out_leaf` (`none` when the loop ended
on `.`/`..`/nothing and `out_leaf` was left untouched, i.e. at the
caller's initial contents). -/
def walkSegs (root : Node) : List Nat → Bool → List (List Char) → Option (List Nat × Option (List Char))
  | cur, _, [] => some (cur, none)
  | cur, wp, tok :: rest =>
    if tok.length = 0 ∨ NAME_MAX < tok.length then none
    else if tok = ['.'] then walkSegs root cur wp rest
    else if tok = ['.', '.'] then walkSegs root cur.dropLast wp rest
    else
      match rest with
      | [] =>
        if wp then some (cur, some tok)
        else
          match dir_find root cur tok with
          | some i => some (cur ++ [i], none)
          | none => none
      | _ :: _ =>
        match dir_find root cur tok with
        | some i =>
          match getNode root (cur ++ [i]) with
          | some c => if c.isDir then walkSegs root (cur ++ [i]) wp rest else none
          | none => none
        | none => none

/-- `walk_from(start, path, want_parent, out_leaf)`: absolute paths start
at the root, relative ones at `start`; the path is copied into a 1024-byte
buffer (hence the truncation to 1023 bytes) and tokenised on `/`. -/
def walk_from (root : Node) (start : List Nat) (path : List Char) (wp : Bool) :
    Option (List Nat × Option (List Char)) :=
  let cur : List Nat :=
    match path with
    | '/' :: _ => []
    | _ => start
  walkSegs root cur wp (splitPath (path.take 1023))

/-- `walk(path, 0, NULL)`: resolve a path to a node (path) relative to the
current working directory. -/
def walk0 (st : FS) (path : List Char) : Option (List Nat) :=
  (walk_from st.root st.cwd path false).map (·.1)

/-- `walk(path, 1, leaf)`: resolve to the would-be parent plus the leaf
written to `out_leaf` (`none` when it was left untouched). -/
def walkWP (st : FS) (path : List Char) : Option (List Nat × Option (List Char)) :=
  walk_from st.root st.cwd path true

inductive NType where
  | nDir
  | nFile
deriving DecidableEq

/-- `node_new(type, name, parent)`: `calloc` a node (never `NULL` absent
allocation failure), `strncpy` the name (truncating it to `NAME_MAX`
bytes), clear the attribute bitset and set all three timestamps to the
current time.  The parent back-pointer is implicit in the tree. -/
def node_new (t : NType) (nm : List Char) (now : Nat) : Option Node :=
  some (match t with
    | .nDir => .dir (nm.take NAME_MAX) ⟨now, now, now, 0⟩ []
    | .nFile => .file (nm.take NAME_MAX) ⟨now, now, now, 0⟩ 0 [])

/-- Swap-with-last removal from a children array:
`children[i] = children[child_count-1]; child_count--`. -/
def swapRemove (cs : List Node) (i : Nat) : List Node :=
  match cs.getLast? with
  | some last => (cs.set i last).dropLast
  | none => cs

/-- The doubling loop of `ensure_cap`: `while (newcap < want) newcap *= 2`.
The loop doubles a positive capacity, so `want` iterations of fuel always
suffice; the fuel only serves the termination checker. -/
def growCap : Nat → Nat → Nat → Nat
  | 0, c, _ => c
  | fuel + 1, c, want => if c < want then growCap fuel (2 * c) want else c

/-- `ensure_cap(f, want)` acting on the data buffer: no-op when capacity
(the buffer length) is enough, otherwise double starting from 64 (or the
current nonzero capacity) and zero-fill the fresh region. -/
def ensure_cap (data : List Nat) (want : Nat) : List Nat :=
  if want ≤ data.length then data
  else
    let newcap := growCap want (if data.length = 0 then 64 else data.length) want
    data ++ List.replicate (newcap - data.length) 0

/-- `memcpy(data + off, b, len)` on a buffer that holds `off + len` bytes. -/
def listWrite (data : List Nat) (off : Nat) (b : List Nat) : List Nat :=
  data.take off ++ b ++ data.drop (off + b.length)

/-- `n->accessed = now`. -/
def stampAcc (now : Nat) : Node → Node
  | .dir nm md cs => .dir nm ⟨md.created, md.modified, now, md.attributes⟩ cs
  | .file nm md sz d => .file nm ⟨md.created, md.modified, now, md.attributes⟩ sz d

/-- `n->modified = now`. -/
def stampMod (now : Nat) : Node → Node
  | .dir nm md cs => .dir nm ⟨md.created, now, md.accessed, md.attributes⟩ cs
  | .file nm md sz d => .file nm ⟨md.created, now, md.accessed, md.attributes⟩ sz d

/-- `n->modified = n->accessed = now`. -/
def stampModAcc (now : Nat) : Node → Node
  | .dir nm md cs => .dir nm ⟨md.created, now, now, md.attributes⟩ cs
  | .file nm md sz d => .file nm ⟨md.created, now, now, md.attributes⟩ sz d

/-- The token loop of `mkdir_p`: `.`/`..` navigate; a missing segment is
created via `node_new` + `dir_add` (which stamps the parent's
modified/accessed time); an existing directory gets its accessed time
stamped; an existing file aborts with -1.  On any failure the directories
already created stay. -/
def mkdirGo (root : Node) (cur : List Nat) (now : Nat) : List (List Char) → Node × Int
  | [] => (root, 0)
  | tok :: rest =>
    if tok.length = 0 ∨ NAME_MAX < tok.length then (root, -1)
    else if tok = ['.'] then mkdirGo root cur now rest
    else if tok = ['.', '.'] then mkdirGo root cur.dropLast now rest
    else
      match dir_find root cur tok with
      | none =>
        match node_new .nDir tok now with
        | none => (root, -1)
        | some child =>
          match getNode root cur with
          | some n =>
            if n.isDir then
              if MAX_CHILDREN ≤ n.childrenOf.length then (root, -1)
              else
                let root' := updAt root cur (fun m =>
                  match m with
                  | .dir nm md cs => .dir nm ⟨md.created, now, now, md.attributes⟩ (cs ++ [child])
                  | other => other)
                mkdirGo root' (cur ++ [n.childrenOf.length]) now rest
            else (root, -1)
          | none => (root, -1)
      | some i =>
        match getNode root (cur ++ [i]) with
        | some c =>
          if c.isDir then
            mkdirGo (updAt root (cur ++ [i]) (stampAcc now)) (cur ++ [i]) now rest
          else (root, -1)
        | none => (root, -1)

/-- `mkdir_p(path)`: create every missing directory along the path. -/
def mkdir_p (st : FS) (path : List Char) (now : Nat) : FS × Int :=
  if path = ['/'] ∨ path = [] then (st, 0)
  else
    let cur : List Nat :=
      match path with
      | '/' :: _ => []
      | _ => st.cwd
    match splitPath (path.take 1023) with
    | [] => (st, 0)
    | tok :: rest =>
      let res := mkdirGo st.root cur now (tok :: rest)
      (⟨res.1, st.cwd, st.fds⟩, res.2)

/-- `create_file(path)`: resolve the parent with `want_parent`, validate
the leaf, reject duplicates and a read-only parent, then `node_new` +
`dir_add` and stamp the parent's modified/accessed time. -/
def create_file (st : FS) (path : List Char) (now : Nat) : FS × Int :=
  match walkWP st path with
  | none => (st, -1)
  | some (pp, lo) =>
    let leaf := lo.getD []
    match getNode st.root pp with
    | some (.dir nm md cs) =>
      if leaf = [] then (st, -1)
      else if leaf = ['.'] ∨ leaf = ['.', '.'] then (st, -1)
      else if NAME_MAX < leaf.length then (st, -1)
      else if (dir_find st.root pp leaf).isSome then (st, -1)
      else if md.attributes &&& ATTR_READONLY ≠ 0 then (st, -1)
      else
        match node_new .nFile leaf now with
        | none => (st, -1)
        | some f =>
          if MAX_CHILDREN ≤ cs.length then (st, -1)
          else
            (⟨updAt st.root pp
                (fun _ => .dir nm ⟨md.created, now, now, md.attributes⟩ (cs ++ [f])),
              st.cwd, st.fds⟩, 0)
    | _ => (st, -1)

/-- The file node produced by the write path shared by `write_file` and
`fs_write_fd`: buffer grown to `off + len` and overwritten at `off`, size
extended when the write passed the old end, modified/accessed stamped. -/
def fileWriteUpd (now off : Nat) (b : List Nat) (nm : List Char) (md : NodeMeta)
    (sz : Nat) (data : List Nat) : Node :=
  .file nm ⟨md.created, now, now, md.attributes⟩
    (if sz < off + b.length then off + b.length else sz)
    (listWrite (ensure_cap data (off + b.length)) off b)

/-- `write_file(path, off, buf, len)`: resolve to a file, reject a
read-only one, grow the buffer to `off + len`, copy the bytes, extend the
size if the write passed the old end, stamp modified/accessed, return
`len`. -/
def write_file (st : FS) (path : List Char) (off : Nat) (b : List Nat) (now : Nat) : FS × Int :=
  match walk0 st path with
  | none => (st, -1)
  | some fp =>
    match getNode st.root fp with
    | some (.file nm md sz data) =>
      if md.attributes &&& ATTR_READONLY ≠ 0 then (st, -1)
      else
        (⟨updAt st.root fp (fun _ => fileWriteUpd now off b nm md sz data),
          st.cwd, st.fds⟩, (b.length : Int))
    | _ => (st, -1)

/-- `read_file(path, off, buf, len)`: resolve to a file; at or past
end-of-file return 0; otherwise copy `min(len, size - off)` bytes into
`buf` (returned here as the byte list), stamp accessed, return the
count. -/
def read_file (st : FS) (path : List Char) (off len : Nat) (now : Nat) : FS × Int × List Nat :=
  match walk0 st path with
  | none => (st, -1, [])
  | some fp =>
    match getNode st.root fp with
    | some (.file _ _ sz data) =>
      if sz ≤ off then (st, 0, [])
      else
        let avail := sz - off
        let toRead := if avail > len then len else avail
        (⟨updAt st.root fp (stampAcc now), st.cwd, st.fds⟩, (toRead : Int),
          (data.drop off).take toRead)
    | _ => (st, -1, [])

/-- `rm_file(path)`: resolve the parent, reject a read-only parent, scan
for the first file child with the leaf name, reject it when read-only,
else swap-remove it and stamp the parent's modified/accessed time. -/
def rm_file (st : FS) (path : List Char) (now : Nat) : FS × Int :=
  match walkWP st path with
  | none => (st, -1)
  | some (pp, lo) =>
    let leaf := lo.getD []
    match getNode st.root pp with
    | none => (st, -1)
    | some par =>
      if par.attrsOf &&& ATTR_READONLY ≠ 0 then (st, -1)
      else
        match par.childrenOf.findIdx? (fun c => c.nameOf == leaf && c.isFile) with
        | none => (st, -1)
        | some i =>
          match par.childrenOf[i]? with
          | none => (st, -1)
          | some c =>
            if c.attrsOf &&& ATTR_READONLY ≠ 0 then (st, -1)
            else
              (⟨updAt st.root pp (fun m =>
                  match m with
                  | .dir nm md cs => .dir nm ⟨md.created, now, now, md.attributes⟩ (swapRemove cs i)
                  | other => other), st.cwd, st.fds⟩, 0)

/-- `rmdir_empty(path)`: resolve the directory itself; reject a missing
node, a non-directory, the root, a non-empty directory, a read-only
parent or target; then swap-remove it from its parent (found by pointer
identity, i.e. at the last index of the resolved path) and stamp the
parent. -/
def rmdir_empty (st : FS) (path : List Char) (now : Nat) : FS × Int :=
  match walk0 st path with
  | none => (st, -1)
  | some np =>
    match getNode st.root np with
    | none => (st, -1)
    | some d =>
      if ¬ d.isDir then (st, -1)
      else if np = [] then (st, -1)
      else if d.childrenOf.length ≠ 0 then (st, -1)
      else
        match np.getLast? with
        | none => (st, -1)
        | some i =>
          match getNode st.root np.dropLast with
          | none => (st, -1)
          | some p =>
            if p.attrsOf &&& ATTR_READONLY ≠ 0 then (st, -1)
            else if d.attrsOf &&& ATTR_READONLY ≠ 0 then (st, -1)
            else
              (⟨updAt st.root np.dropLast (fun m =>
                  match m with
                  | .dir nm md cs => .dir nm ⟨md.created, now, now, md.attributes⟩ (swapRemove cs i)
                  | other => other), st.cwd, st.fds⟩, 0)

/-- `set_file_attributes(path, attributes)`: resolve the node, replace the
bitset wholesale (`attributes` is a `uint8_t`, hence the byte truncation)
and stamp modified. -/
def set_file_attributes (st : FS) (path : List Char) (bits : Nat) (now : Nat) : FS × Int :=
  match walk0 st path with
  | none => (st, -1)
  | some np =>
    match getNode st.root np with
    | none => (st, -1)
    | some _ =>
      (⟨updAt st.root np (fun m =>
          match m with
          | .dir nm md cs => .dir nm ⟨md.created, now, md.accessed, bits % 256⟩ cs
          | .file nm md sz d => .file nm ⟨md.created, now, md.accessed, bits % 256⟩ sz d),
        st.cwd, st.fds⟩, 0)

/-- `touch_file(path)`: resolve the node and stamp both accessed and
modified to the current time. -/
def touch_file (st : FS) (path : List Char) (now : Nat) : FS × Int :=
  match walk0 st path with
  | none => (st, -1)
  | some np =>
    match getNode st.root np with
    | none => (st, -1)
    | some _ => (⟨updAt st.root np (stampModAcc now), st.cwd, st.fds⟩, 0)

/-- If the first list leads the second, return the remaining suffix. -/
def stripLead : List Nat → List Nat → Option (List Nat)
  | [], ys => some ys
  | _ :: _, [] => none
  | x :: xs, y :: ys => if x = y then stripLead xs ys else none

/-- `rename_file(old_path, new_path)`.  Checks, in the C's order: source
resolves and is not the root; source and its parent are not read-only;
destination parent resolves, is a directory, is not read-only; no child of
the destination parent bears the new name.  Same parent: rename in place.
Different parents: detach (swap-with-last, no timestamps), `dir_add` into
the new parent (with reattach-and-still-fail on capacity failure), stamp
the old parent, then update the name and modified stamps.

Pointer-to-path translation in the move: the node `n` sits at the last
index `i` of its path, so the C's pointer-search detach removes index `i`;
the new parent was resolved in the pre-detach tree, so its path must be
re-based when the swap moved the old last child onto index `i`, and an
attachment under the detached subtree itself is invisible in the tree.
The reattach after a failed attach cannot itself fail (the old parent just
lost a child, so it has room), so it is modelled as an unconditional
append. -/
def rename_file (st : FS) (oldP newP : List Char) (now : Nat) : FS × Int :=
  match walk0 st oldP with
  | none => (st, -1)
  | some np =>
    match getNode st.root np with
    | none => (st, -1)
    | some n =>
      if np = [] then (st, -1)
      else if n.attrsOf &&& ATTR_READONLY ≠ 0 then (st, -1)
      else if (match getNode st.root np.dropLast with
               | some p => decide (p.attrsOf &&& ATTR_READONLY ≠ 0)
               | none => false) = true then (st, -1)
      else
        match walkWP st newP with
        | none => (st, -1)
        | some (pp, lo) =>
          let newName := lo.getD []
          match getNode st.root pp with
          | none => (st, -1)
          | some par =>
            if ¬ par.isDir then (st, -1)
            else if par.attrsOf &&& ATTR_READONLY ≠ 0 then (st, -1)
            else if (dir_find st.root pp newName).isSome then (st, -1)
            else if np.dropLast = pp then
              let root1 := updAt st.root np (fun m =>
                match m with
                | .dir _ md cs => .dir (newName.take NAME_MAX) ⟨md.created, now, md.accessed, md.attributes⟩ cs
                | .file _ md sz d => .file (newName.take NAME_MAX) ⟨md.created, now, md.accessed, md.attributes⟩ sz d)
              (⟨updAt root1 pp (stampMod now), st.cwd, st.fds⟩, 0)
            else
              match np.getLast? with
              | none => (st, -1)
              | some i =>
                let opp := np.dropLast
                match getNode st.root opp with
                | none => (st, -1)
                | some oldPar =>
                  let oldLast := oldPar.childrenOf.length - 1
                  let root1 := updAt st.root opp (fun m =>
                    match m with
                    | .dir nm md cs => .dir nm md (swapRemove cs i)
                    | other => other)
                  match stripLead np pp with
                  | some _ =>
                    if MAX_CHILDREN ≤ par.childrenOf.length then
                      (⟨updAt root1 opp (fun m =>
                          match m with
                          | .dir nm md cs => .dir nm ⟨md.created, now, now, md.attributes⟩ (cs ++ [n])
                          | other => other), st.cwd, st.fds⟩, -1)
                    else
                      (⟨updAt root1 opp (stampModAcc now), st.cwd, st.fds⟩, 0)
                  | none =>
                    let pp1 :=
                      match stripLead opp pp with
                      | some (k :: restSeg) => if k = oldLast then opp ++ i :: restSeg else pp
                      | _ => pp
                    match getNode root1 pp1 with
                    | some (.dir pnm pmd pcs) =>
                      if MAX_CHILDREN ≤ pcs.length then
                        (⟨updAt root1 opp (fun m =>
                            match m with
                            | .dir nm md cs => .dir nm ⟨md.created, now, now, md.attributes⟩ (cs ++ [n])
                            | other => other), st.cwd, st.fds⟩, -1)
                      else
                        let root2 := updAt root1 pp1
                          (fun _ => .dir pnm ⟨pmd.created, now, now, pmd.attributes⟩ (pcs ++ [n]))
                        let root3 := updAt root2 opp (stampModAcc now)
                        let root4 := updAt root3 (pp1 ++ [pcs.length]) (fun m =>
                          match m with
                          | .dir _ md cs => .dir (newName.take NAME_MAX) ⟨md.created, now, md.accessed, md.attributes⟩ cs
                          | .file _ md sz d => .file (newName.take NAME_MAX) ⟨md.created, now, md.accessed, md.attributes⟩ sz d)
                        (⟨updAt root4 pp1 (stampMod now), st.cwd, st.fds⟩, 0)
                    | _ => (st, -1)

/-- The `fs_open` scan for the first Free slot in the 32-entry table. -/
def firstFree (fds : List FDEnt) : Option Nat :=
  (fds.take MAX_OPEN_FILES).findIdx? (fun e => !e.inUse)

/-- `fs_open(path, flags)`: resolve to a file; reject write access to a
read-only file; take the first Free slot (cursor 0, store mode and node),
stamp the node's accessed time and return the slot index; -1 when the
table is full. -/
def fs_open (st : FS) (path : List Char) (flags : Nat) (now : Nat) : FS × Int :=
  match walk0 st path with
  | none => (st, -1)
  | some np =>
    match getNode st.root np with
    | none => (st, -1)
    | some n =>
      if ¬ n.isFile then (st, -1)
      else if (flags &&& O_WRONLY ≠ 0 ∨ flags &&& O_RDWR ≠ 0) ∧ n.attrsOf &&& ATTR_READONLY ≠ 0 then
        (st, -1)
      else
        match firstFree st.fds with
        | some i =>
          (⟨updAt st.root np (stampAcc now), st.cwd, st.fds.set i ⟨np, 0, flags, true⟩⟩, (i : Int))
        | none => (st, -1)

/-- `fs_close(fd)`: reject an out-of-range or Free handle, else clear the
slot back to Free. -/
def fs_close (st : FS) (fd : Int) : FS × Int :=
  if fd < 0 ∨ (MAX_OPEN_FILES : Int) ≤ fd then (st, -1)
  else
    match st.fds[fd.toNat]? with
    | none => (st, -1)
    | some e =>
      if ¬ e.inUse then (st, -1)
      else (⟨st.root, st.cwd, st.fds.set fd.toNat ⟨[], 0, 0, false⟩⟩, 0)

/-- `fs_read_fd(fd, buf, len)`: reject an out-of-range or Free handle and
a mode with neither `O_RDONLY` nor `O_RDWR` bits (the C's two separate
negated tests, kept verbatim); 0 at or past end-of-file; otherwise copy
`min(len, size - offset)` bytes, advance the cursor, stamp accessed. -/
def fs_read_fd (st : FS) (fd : Int) (len : Nat) (now : Nat) : FS × Int × List Nat :=
  if fd < 0 ∨ (MAX_OPEN_FILES : Int) ≤ fd then (st, -1, [])
  else
    match st.fds[fd.toNat]? with
    | none => (st, -1, [])
    | some e =>
      if ¬ e.inUse then (st, -1, [])
      else if e.flags &&& O_RDONLY = 0 ∧ e.flags &&& O_RDWR = 0 then (st, -1, [])
      else
        match getNode st.root e.node with
        | some (.file _ _ sz data) =>
          if sz ≤ e.offset then (st, 0, [])
          else
            let avail := sz - e.offset
            let toRead := if avail > len then len else avail
            (⟨updAt st.root e.node (stampAcc now), st.cwd,
              st.fds.set fd.toNat { e with offset := e.offset + toRead }⟩, (toRead : Int),
              (data.drop e.offset).take toRead)
        | _ => (st, -1, [])

/-- `fs_write_fd(fd, buf, len)`: reject an out-of-range or Free handle, a
mode with neither `O_WRONLY` nor `O_RDWR` bits, and a read-only node;
grow the buffer to `offset + len`, copy, extend the size when the write
passed the old end, advance the cursor, stamp modified/accessed, return
`len`. -/
def fs_write_fd (st : FS) (fd : Int) (b : List Nat) (now : Nat) : FS × Int :=
  if fd < 0 ∨ (MAX_OPEN_FILES : Int) ≤ fd then (st, -1)
  else
    match st.fds[fd.toNat]? with
    | none => (st, -1)
    | some e =>
      if ¬ e.inUse then (st, -1)
      else if e.flags &&& O_WRONLY = 0 ∧ e.flags &&& O_RDWR = 0 then (st, -1)
      else
        match getNode st.root e.node with
        | some (.file nm md sz data) =>
          if md.attributes &&& ATTR_READONLY ≠ 0 then (st, -1)
          else
            (⟨updAt st.root e.node (fun _ => fileWriteUpd now e.offset b nm md sz data),
              st.cwd, st.fds.set fd.toNat { e with offset := e.offset + b.length }⟩, (b.length : Int))
        | _ => (st, -1)

/-- `fs_seek(fd, offset, whence)`: compute the new cursor from SET(0) /
CUR(1) / END(2); reject a bad whence or a negative result; else set the
cursor and return the new absolute position. -/
def fs_seek (st : FS) (fd : Int) (offset : Int) (whence : Nat) : FS × Int :=
  if fd < 0 ∨ (MAX_OPEN_FILES : Int) ≤ fd then (st, -1)
  else
    match st.fds[fd.toNat]? with
    | none => (st, -1)
    | some e =>
      if ¬ e.inUse then (st, -1)
      else
        match getNode st.root e.node with
        | some (.file _ _ sz _) =>
          match (match whence with
                 | 0 => some offset
                 | 1 => some ((e.offset : Int) + offset)
                 | 2 => some ((sz : Int) + offset)
                 | _ => none : Option Int) with
          | none => (st, -1)
          | some v =>
            if v < 0 then (st, -1)
            else (⟨st.root, st.cwd, st.fds.set fd.toNat { e with offset := v.toNat }⟩, v)
        | _ => (st, -1)

/-! ### Lemmas about the buffer primitives -/

theorem growCap_le (fuel c want : Nat) : c ≤ growCap fuel c want := by
  induction fuel generalizing c with
  | zero => simp [growCap]
  | succ f ih =>
    simp only [growCap]
    split
    · exact le_trans (by omega) (ih (2 * c))
    · exact le_refl c

theorem growCap_ge (fuel c want : Nat) (hc : 1 ≤ c) (h : want ≤ 2 ^ fuel * c) :
    want ≤ growCap fuel c want := by
  induction fuel generalizing c with
  | zero => simpa [growCap] using h
  | succ f ih =>
    simp only [growCap]
    split
    · refine ih (2 * c) (by omega) ?_
      calc want ≤ 2 ^ (f + 1) * c := h
        _ = 2 ^ f * (2 * c) := by ring
    · omega

theorem ensure_cap_length (data : List Nat) (want : Nat) :
    want ≤ (ensure_cap data want).length := by
  unfold ensure_cap
  split
  · assumption
  · have hc : 1 ≤ (if data.length = 0 then 64 else data.length) := by split <;> omega
    have h2 : want ≤ growCap want (if data.length = 0 then 64 else data.length) want := by
      refine growCap_ge _ _ _ hc ?_
      calc want ≤ 2 ^ want := le_of_lt (Nat.lt_two_pow want)
        _ ≤ 2 ^ want * (if data.length = 0 then 64 else data.length) :=
          Nat.le_mul_of_pos_right _ (by omega)
    have h1 : data.length ≤ growCap want (if data.length = 0 then 64 else data.length) want := by
      rcases Nat.eq_zero_or_pos data.length with h0 | h0
      · omega
      · have := growCap_le want data.length want
        simp only [Nat.pos_iff_ne_zero.mp h0, if_false] at *
        omega
    simp only [List.length_append, List.length_replicate]
    omega

theorem listWrite_read (data : List Nat) (off : Nat) (b : List Nat)
    (h : off + b.length ≤ data.length) :
    ((listWrite data off b).drop off).take b.length = b := by
  unfold listWrite
  rw [List.append_assoc]
  set t := data.take off with ht
  set r := data.drop (off + b.length) with hr
  have hoff : t.length = off := by
    rw [ht, List.length_take]; omega
  rw [← hoff, List.drop_left, List.take_left]

/-! ### Lemmas about `getNode` and `updAt` -/

theorem getNode_nil (n : Node) : getNode n [] = some n := rfl

theorem getNode_cons (n : Node) (i : Nat) (p : List Nat) :
    getNode n (i :: p) = (n.childrenOf[i]?).bind (fun c => getNode c p) := rfl

theorem getNode_updAt_self (root : Node) (q : List Nat) (h : Node → Node) (n0 : Node)
    (hg : getNode root q = some n0) : getNode (updAt root q h) q = some (h n0) := by
  induction q generalizing root with
  | nil =>
    rw [getNode_nil] at hg
    cases hg
    rfl
  | cons i q' ih =>
    cases root with
    | file nm md sz d => rw [getNode_cons, Node.childrenOf] at hg; simp at hg
    | dir nm md cs =>
      rw [getNode_cons] at hg
      cases hcs : cs[i]? with
      | none => rw [Node.childrenOf] at hg; rw [hcs] at hg; simp at hg
      | some c =>
        rw [Node.childrenOf] at hg; rw [hcs] at hg
        rw [Option.some_bind] at hg
        have hlen : i < cs.length := (List.getElem?_eq_some.mp hcs).1
        have : updAt (.dir nm md cs) (i :: q') h = .dir nm md (cs.set i (updAt c q' h)) := by
          simp [updAt, hcs]
        rw [this, getNode_cons, Node.childrenOf, List.getElem?_set_self (by simpa using hlen)]
        simp [ih c hg]

/-! ### Walk only depends on the tree's names, types and shape -/

/-- The part of a node the path resolver can observe: name, variant,
attribute bitset, and the child name list.  Two roots that agree on this
at every path are indistinguishable to `walk_from`. -/
def nsig (n : Node) : List Char × Bool × Nat × List (List Char) :=
  (n.nameOf, n.isDir, n.attrsOf, n.childNames)

def SigEq (r1 r2 : Node) : Prop :=
  ∀ p : List Nat, (getNode r1 p).map nsig = (getNode r2 p).map nsig

theorem sigEq_attrs {r1 r2 : Node} (h : SigEq r1 r2) (p : List Nat) :
    (getNode r1 p).map Node.attrsOf = (getNode r2 p).map Node.attrsOf := by
  have h1 : ∀ r : Node, (getNode r p).map Node.attrsOf = ((getNode r p).map nsig).map (·.2.2.1) := by
    intro r
    cases getNode r p <;> rfl
  rw [h1, h1, h p]

theorem set_same {α : Type} (l : List α) (i : Nat) (a : α) (ha : l[i]? = some a) :
    l.set i a = l := by
  apply List.ext_getElem?
  intro j
  by_cases hij : i = j
  · subst hij
    rw [List.getElem?_set_self (List.getElem?_eq_some.mp ha).1, ha]
  · rw [List.getElem?_set_ne hij]

theorem dir_find_sigEq {r1 r2 : Node} (h : SigEq r1 r2) (cur : List Nat) (nm : List Char) :
    dir_find r1 cur nm = dir_find r2 cur nm := by
  unfold dir_find
  have hs := h cur
  cases h1 : getNode r1 cur with
  | none =>
    cases h2 : getNode r2 cur with
    | none => rfl
    | some n2 => rw [h1, h2] at hs; simp at hs
  | some n1 =>
    cases h2 : getNode r2 cur with
    | none => rw [h1, h2] at hs; simp at hs
    | some n2 =>
      rw [h1, h2] at hs
      simp only [Option.map_some', Option.some.injEq] at hs
      have hd : n1.isDir = n2.isDir := congrArg (·.2.1) hs
      have hn : n1.childNames = n2.childNames := congrArg (·.2.2.2) hs
      dsimp only
      rw [hd, hn]

theorem walkSegs_sigEq {r1 r2 : Node} (h : SigEq r1 r2) :
    ∀ (segs : List (List Char)) (cur : List Nat) (wp : Bool),
      walkSegs r1 cur wp segs = walkSegs r2 cur wp segs := by
  intro segs
  induction segs with
  | nil => intro cur wp; rfl
  | cons tok rest ih =>
    intro cur wp
    simp only [walkSegs]
    by_cases h0 : (tok.length = 0 ∨ NAME_MAX < tok.length)
    · rw [if_pos h0, if_pos h0]
    rw [if_neg h0, if_neg h0]
    by_cases h1 : tok = ['.']
    · rw [if_pos h1, if_pos h1]; exact ih cur wp
    rw [if_neg h1, if_neg h1]
    by_cases h2 : tok = ['.', '.']
    · rw [if_pos h2, if_pos h2]; exact ih cur.dropLast wp
    rw [if_neg h2, if_neg h2]
    cases rest with
    | nil => rw [dir_find_sigEq h cur tok]
    | cons s ss =>
      rw [dir_find_sigEq h cur tok]
      cases hf : dir_find r2 cur tok with
      | none => rfl
      | some i =>
        simp only []
        have hsig := h (cur ++ [i])
        cases hg1 : getNode r1 (cur ++ [i]) with
        | none =>
          cases hg2 : getNode r2 (cur ++ [i]) with
          | none => rfl
          | some c2 => rw [hg1, hg2] at hsig; simp at hsig
        | some c1 =>
          cases hg2 : getNode r2 (cur ++ [i]) with
          | none => rw [hg1, hg2] at hsig; simp at hsig
          | some c2 =>
            rw [hg1, hg2] at hsig
            simp only [Option.map_some', Option.some.injEq] at hsig
            have hd : c1.isDir = c2.isDir := congrArg (·.2.1) hsig
            dsimp only
            rw [hd]
            by_cases hc : c2.isDir <;> simp [hc, ih]

theorem walk_from_sigEq {r1 r2 : Node} (h : SigEq r1 r2) (start : List Nat)
    (path : List Char) (wp : Bool) :
    walk_from r1 start path wp = walk_from r2 start path wp := by
  unfold walk_from
  exact walkSegs_sigEq h _ _ _

/-- Updating the node at `q` with a function that keeps its name, variant,
attributes and (for a directory) its very child list — e.g. rewriting a
file's contents or stamping timestamps — leaves the resolver's view of the
whole tree unchanged. -/
theorem sigEq_updAt {root : Node} {q : List Nat} {h : Node → Node} {n0 : Node}
    (hg : getNode root q = some n0)
    (h1 : nsig (h n0) = nsig n0)
    (h2 : (h n0).childrenOf = n0.childrenOf) :
    SigEq (updAt root q h) root := by
  induction q generalizing root with
  | nil =>
    rw [getNode_nil] at hg
    have hroot : root = n0 := by injection hg
    subst hroot
    intro p
    cases p with
    | nil =>
      show some (nsig (h root)) = some (nsig root)
      rw [h1]
    | cons i p' =>
      show ((((h root).childrenOf)[i]?).bind (fun c => getNode c p')).map nsig = _
      rw [h2]
      rfl
  | cons i q' ih =>
    cases root with
    | file nm md sz d => rw [getNode_cons, Node.childrenOf] at hg; simp at hg
    | dir nm md cs =>
      rw [getNode_cons, Node.childrenOf] at hg
      cases hcs : cs[i]? with
      | none => rw [hcs] at hg; simp at hg
      | some c =>
        rw [hcs, Option.some_bind] at hg
        have ihc := ih hg
        have hlen : i < cs.length := (List.getElem?_eq_some.mp hcs).1
        have hupd : updAt (.dir nm md cs) (i :: q') h = .dir nm md (cs.set i (updAt c q' h)) := by
          simp [updAt, hcs]
        rw [hupd]
        intro p
        cases p with
        | nil =>
          simp only [getNode_nil, Option.map_some', Option.some_inj, nsig, Node.nameOf,
            Node.isDir, Node.attrsOf, Node.mdOf, Node.childNames, Node.childrenOf]
          have hcname : (updAt c q' h).nameOf = c.nameOf := by
            have hc0 := ihc []
            simp only [getNode_nil, Option.map_some', Option.some_inj] at hc0
            exact congrArg (·.1) hc0
          rw [List.map_set, hcname]
          have hmi : (cs.map Node.nameOf)[i]? = some c.nameOf := by
            rw [List.getElem?_map, hcs]; rfl
          rw [set_same _ _ _ hmi]
        | cons j p' =>
          rw [getNode_cons, getNode_cons, Node.childrenOf, Node.childrenOf]
          by_cases hij : i = j
          · subst hij
            rw [List.getElem?_set_self (by simpa using hlen), hcs]
            simp only [Option.some_bind]
            exact ihc p'
          · rw [List.getElem?_set_ne hij]

/-! ### Failure leaves the state untouched (helper lemmas, one per operation) -/

theorem create_file_err (st : FS) (path : List Char) (now : Nat)
    (h : (create_file st path now).2 < 0) : (create_file st path now).1 = st := by
  rcases hres : create_file st path now with ⟨st2, r⟩
  rw [hres] at h
  have hr : r < 0 := h
  show st2 = st
  unfold create_file at hres
  try dsimp only at hres
  repeat' split at hres
  all_goals injection hres with e1 e2
  all_goals first
    | exact e1.symm
    | (exfalso; omega)

theorem rm_file_err (st : FS) (path : List Char) (now : Nat)
    (h : (rm_file st path now).2 < 0) : (rm_file st path now).1 = st := by
  rcases hres : rm_file st path now with ⟨st2, r⟩
  rw [hres] at h
  have hr : r < 0 := h
  show st2 = st
  unfold rm_file at hres
  try dsimp only at hres
  repeat' split at hres
  all_goals injection hres with e1 e2
  all_goals first
    | exact e1.symm
    | (exfalso; omega)

theorem rmdir_empty_err (st : FS) (path : List Char) (now : Nat)
    (h : (rmdir_empty st path now).2 < 0) : (rmdir_empty st path now).1 = st := by
  rcases hres : rmdir_empty st path now with ⟨st2, r⟩
  rw [hres] at h
  have hr : r < 0 := h
  show st2 = st
  unfold rmdir_empty at hres
  try dsimp only at hres
  repeat' split at hres
  all_goals injection hres with e1 e2
  all_goals first
    | exact e1.symm
    | (exfalso; omega)

theorem write_file_err (st : FS) (path : List Char) (off : Nat) (b : List Nat) (now : Nat)
    (h : (write_file st path off b now).2 < 0) : (write_file st path off b now).1 = st := by
  rcases hres : write_file st path off b now with ⟨st2, r⟩
  rw [hres] at h
  have hr : r < 0 := h
  show st2 = st
  unfold write_file at hres
  try dsimp only at hres
  repeat' split at hres
  all_goals injection hres with e1 e2
  all_goals first
    | exact e1.symm
    | (exfalso; omega)

theorem fs_open_err (st : FS) (path : List Char) (flags : Nat) (now : Nat)
    (h : (fs_open st path flags now).2 < 0) : (fs_open st path flags now).1 = st := by
  rcases hres : fs_open st path flags now with ⟨st2, r⟩
  rw [hres] at h
  have hr : r < 0 := h
  show st2 = st
  unfold fs_open at hres
  try dsimp only at hres
  repeat' split at hres
  all_goals injection hres with e1 e2
  all_goals first
    | exact e1.symm
    | (exfalso; omega)

theorem fs_close_err (st : FS) (fd : Int)
    (h : (fs_close st fd).2 < 0) : (fs_close st fd).1 = st := by
  rcases hres : fs_close st fd with ⟨st2, r⟩
  rw [hres] at h
  have hr : r < 0 := h
  show st2 = st
  unfold fs_close at hres
  try dsimp only at hres
  repeat' split at hres
  all_goals injection hres with e1 e2
  all_goals first
    | exact e1.symm
    | (exfalso; omega)

theorem fs_read_fd_err (st : FS) (fd : Int) (len : Nat) (now : Nat)
    (h : (fs_read_fd st fd len now).2.1 < 0) : (fs_read_fd st fd len now).1 = st := by
  rcases hres : fs_read_fd st fd len now with ⟨st2, r, bs⟩
  rw [hres] at h
  have hr : r < 0 := h
  show st2 = st
  unfold fs_read_fd at hres
  try dsimp only at hres
  repeat' split at hres
  all_goals injection hres with e1 e2
  all_goals try injection e2 with e2a e2b
  all_goals first
    | exact e1.symm
    | (exfalso; omega)

theorem fs_write_fd_err (st : FS) (fd : Int) (b : List Nat) (now : Nat)
    (h : (fs_write_fd st fd b now).2 < 0) : (fs_write_fd st fd b now).1 = st := by
  rcases hres : fs_write_fd st fd b now with ⟨st2, r⟩
  rw [hres] at h
  have hr : r < 0 := h
  show st2 = st
  unfold fs_write_fd at hres
  try dsimp only at hres
  repeat' split at hres
  all_goals injection hres with e1 e2
  all_goals first
    | exact e1.symm
    | (exfalso; omega)

theorem fs_seek_err (st : FS) (fd : Int) (offset : Int) (whence : Nat)
    (h : (fs_seek st fd offset whence).2 < 0) : (fs_seek st fd offset whence).1 = st := by
  rcases hres : fs_seek st fd offset whence with ⟨st2, r⟩
  rw [hres] at h
  have hr : r < 0 := h
  show st2 = st
  unfold fs_seek at hres
  try dsimp only at hres
  repeat' split at hres
  all_goals injection hres with e1 e2
  all_goals first
    | exact e1.symm
    | (exfalso; omega)

theorem set_file_attributes_err (st : FS) (path : List Char) (bits : Nat) (now : Nat)
    (h : (set_file_attributes st path bits now).2 < 0) :
    (set_file_attributes st path bits now).1 = st := by
  rcases hres : set_file_attributes st path bits now with ⟨st2, r⟩
  rw [hres] at h
  have hr : r < 0 := h
  show st2 = st
  unfold set_file_attributes at hres
  try dsimp only at hres
  repeat' split at hres
  all_goals injection hres with e1 e2
  all_goals first
    | exact e1.symm
    | (exfalso; omega)

theorem touch_file_err (st : FS) (path : List Char) (now : Nat)
    (h : (touch_file st path now).2 < 0) : (touch_file st path now).1 = st := by
  rcases hres : touch_file st path now with ⟨st2, r⟩
  rw [hres] at h
  have hr : r < 0 := h
  show st2 = st
  unfold touch_file at hres
  try dsimp only at hres
  repeat' split at hres
  all_goals injection hres with e1 e2
  all_goals first
    | exact e1.symm
    | (exfalso; omega)

theorem nsig_fileWriteUpd (now off : Nat) (b : List Nat) (nm : List Char) (md : NodeMeta)
    (sz : Nat) (data : List Nat) :
    nsig (fileWriteUpd now off b nm md sz data) = nsig (Node.file nm md sz data) := rfl

theorem childrenOf_fileWriteUpd (now off : Nat) (b : List Nat) (nm : List Char) (md : NodeMeta)
    (sz : Nat) (data : List Nat) :
    (fileWriteUpd now off b nm md sz data).childrenOf = (Node.file nm md sz data).childrenOf := rfl

theorem nsig_stampModAcc (now : Nat) (n : Node) : nsig (stampModAcc now n) = nsig n := by
  cases n <;> rfl

theorem childrenOf_stampModAcc (now : Nat) (n : Node) :
    (stampModAcc now n).childrenOf = n.childrenOf := by
  cases n <;> rfl

theorem nsig_stampAcc (now : Nat) (n : Node) : nsig (stampAcc now n) = nsig n := by
  cases n <;> rfl

theorem childrenOf_stampAcc (now : Nat) (n : Node) :
    (stampAcc now n).childrenOf = n.childrenOf := by
  cases n <;> rfl

/-- `write_file` never changes any node's attribute bitset. -/
theorem write_file_attrs (st : FS) (path : List Char) (off : Nat) (b : List Nat)
    (now : Nat) (q : List Nat) :
    (getNode (write_file st path off b now).1.root q).map Node.attrsOf =
      (getNode st.root q).map Node.attrsOf := by
  rcases hres : write_file st path off b now with ⟨st2, r⟩
  show (getNode st2.root q).map Node.attrsOf = _
  unfold write_file at hres
  repeat' split at hres
  all_goals injection hres with e1 e2
  all_goals subst e1
  all_goals first
    | rfl
    | exact sigEq_attrs
        (sigEq_updAt (by assumption) (nsig_fileWriteUpd _ _ _ _ _ _ _)
          (childrenOf_fileWriteUpd _ _ _ _ _ _ _)) q

/-- `fs_write_fd` never changes any node's attribute bitset. -/
theorem fs_write_fd_attrs (st : FS) (fd : Int) (b : List Nat) (now : Nat) (q : List Nat) :
    (getNode (fs_write_fd st fd b now).1.root q).map Node.attrsOf =
      (getNode st.root q).map Node.attrsOf := by
  rcases hres : fs_write_fd st fd b now with ⟨st2, r⟩
  show (getNode st2.root q).map Node.attrsOf = _
  unfold fs_write_fd at hres
  repeat' split at hres
  all_goals injection hres with e1 e2
  all_goals subst e1
  all_goals first
    | rfl
    | exact sigEq_attrs
        (sigEq_updAt (by assumption) (nsig_fileWriteUpd _ _ _ _ _ _ _)
          (childrenOf_fileWriteUpd _ _ _ _ _ _ _)) q

/-- `touch_file` never changes any node's attribute bitset. -/
theorem touch_file_attrs (st : FS) (path : List Char) (now : Nat) (q : List Nat) :
    (getNode (touch_file st path now).1.root q).map Node.attrsOf =
      (getNode st.root q).map Node.attrsOf := by
  rcases hres : touch_file st path now with ⟨st2, r⟩
  show (getNode st2.root q).map Node.attrsOf = _
  unfold touch_file at hres
  repeat' split at hres
  all_goals injection hres with e1 e2
  all_goals subst e1
  all_goals first
    | rfl
    | exact sigEq_attrs
        (sigEq_updAt (by assumption) (nsig_stampModAcc _ _) (childrenOf_stampModAcc _ _)) q

/-- A write that returns `len` took the success path: the path resolved to
a file, and the new state is exactly the old one with that file node
rewritten via `fileWriteUpd`. -/
theorem write_file_success (st : FS) (path : List Char) (off : Nat) (b : List Nat) (now : Nat)
    (h : (write_file st path off b now).2 = (b.length : Int)) :
    ∃ fp nm md sz data,
      walk0 st path = some fp ∧
      getNode st.root fp = some (.file nm md sz data) ∧
      (write_file st path off b now).1 =
        ⟨updAt st.root fp (fun _ => fileWriteUpd now off b nm md sz data), st.cwd, st.fds⟩ := by
  rcases hres : write_file st path off b now with ⟨st2, r⟩
  rw [hres] at h
  have hr : r = (b.length : Int) := h
  show ∃ fp nm md sz data, _ ∧ _ ∧ st2 = _
  unfold write_file at hres
  repeat' split at hres
  all_goals injection hres with e1 e2
  all_goals try (exfalso; omega)
  exact ⟨_, _, _, _, _, by assumption, by assumption, e1.symm⟩

/-- C1: writing `len` bytes at offset `off` and then immediately reading
`len` bytes at `off` through the same path returns `len` and exactly the
written bytes. -/
theorem claim_C1 (st : FS) (p : List Char) (off : Nat) (b : List Nat) (now now2 : Nat)
    (h : (write_file st p off b now).2 = (b.length : Int)) :
    (read_file (write_file st p off b now).1 p off b.length now2).2.1 = (b.length : Int) ∧
    (read_file (write_file st p off b now).1 p off b.length now2).2.2 = b := by
  obtain ⟨fp, nm, md, sz, data, hw, hn, hst⟩ := write_file_success st p off b now h
  rw [hst]
  set st1 : FS := ⟨updAt st.root fp (fun _ => fileWriteUpd now off b nm md sz data),
    st.cwd, st.fds⟩ with hst1
  have hsig : SigEq st1.root st.root :=
    sigEq_updAt hn (nsig_fileWriteUpd _ _ _ _ _ _ _) (childrenOf_fileWriteUpd _ _ _ _ _ _ _)
  have hw1 : walk0 st1 p = some fp := by
    show (walk_from st1.root st.cwd p false).map (·.1) = some fp
    rw [walk_from_sigEq hsig]
    exact hw
  have hn1 : getNode st1.root fp = some (.file nm ⟨md.created, now, now, md.attributes⟩
      (if sz < off + b.length then off + b.length else sz)
      (listWrite (ensure_cap data (off + b.length)) off b)) :=
    getNode_updAt_self _ _ _ _ hn
  unfold read_file
  rw [hw1]
  dsimp only
  rw [hn1]
  dsimp only
  set sz2 := if sz < off + b.length then off + b.length else sz with hsz2
  have hsz2ge : off + b.length ≤ sz2 := by rw [hsz2]; split <;> omega
  by_cases hoff : sz2 ≤ off
  · rw [if_pos hoff]
    have hb0 : b.length = 0 := by omega
    have hb : b = [] := List.length_eq_zero.mp hb0
    subst hb
    exact ⟨rfl, rfl⟩
  · rw [if_neg hoff]
    have htr : (if sz2 - off > b.length then b.length else sz2 - off) = b.length := by
      split <;> omega
    constructor
    · dsimp only
      rw [htr]
    · dsimp only
      rw [htr]
      exact listWrite_read _ _ _ (ensure_cap_length data (off + b.length))

/-- C2 (amended): for every listed operation other than `rename_file` and
`mkdir_p`, an error return leaves the state unchanged — in fact bitwise
unchanged, timestamps and descriptor table included. (`mkdir_p` is
excluded because it creates the directories of a valid prefix before
failing on a later segment; see the counterexample.) -/
theorem claim_C2 :
    (∀ st path now, (create_file st path now).2 < 0 → (create_file st path now).1 = st) ∧
    (∀ st path now, (rm_file st path now).2 < 0 → (rm_file st path now).1 = st) ∧
    (∀ st path now, (rmdir_empty st path now).2 < 0 → (rmdir_empty st path now).1 = st) ∧
    (∀ st path off b now,
      (write_file st path off b now).2 < 0 → (write_file st path off b now).1 = st) ∧
    (∀ st path flags now,
      (fs_open st path flags now).2 < 0 → (fs_open st path flags now).1 = st) ∧
    (∀ st fd, (fs_close st fd).2 < 0 → (fs_close st fd).1 = st) ∧
    (∀ st fd len now,
      (fs_read_fd st fd len now).2.1 < 0 → (fs_read_fd st fd len now).1 = st) ∧
    (∀ st fd b now, (fs_write_fd st fd b now).2 < 0 → (fs_write_fd st fd b now).1 = st) ∧
    (∀ st fd offset whence,
      (fs_seek st fd offset whence).2 < 0 → (fs_seek st fd offset whence).1 = st) ∧
    (∀ st path bits now,
      (set_file_attributes st path bits now).2 < 0 → (set_file_attributes st path bits now).1 = st) ∧
    (∀ st path now, (touch_file st path now).2 < 0 → (touch_file st path now).1 = st) :=
  ⟨create_file_err, rm_file_err, rmdir_empty_err, write_file_err, fs_open_err, fs_close_err,
    fs_read_fd_err, fs_write_fd_err, fs_seek_err, set_file_attributes_err, touch_file_err⟩

theorem claim_C2_witness :
    (create_file (fs_init 0) [] 0).1 = fs_init 0 ∧ (fs_close (fs_init 0) 5).1 = fs_init 0 :=
  ⟨claim_C2.1 (fs_init 0) [] 0 (by decide),
    claim_C2.2.2.2.2.2.1 (fs_init 0) 5 (by decide)⟩

/-- C2 counterexample: `mkdir_p` on a path whose second segment is 33
bytes long returns -1 yet has already created the first directory, so the
tree structure observably changed on an error return. -/
theorem claim_C2_cex :
    (mkdir_p (fs_init 0) ('/' :: 'a' :: '/' :: List.replicate 33 'a') 5).2 = -1 ∧
    (mkdir_p (fs_init 0) ('/' :: 'a' :: '/' :: List.replicate 33 'a') 5).1.root.childNames
      = [['a']] ∧
    (fs_init 0).root.childNames = [] :=
  ⟨rfl, rfl, rfl⟩

/-- C3: when the source of a rename resolves to a non-root node and the
destination parent already holds an entry with the new leaf name, the call
fails and changes nothing at all. -/
theorem claim_C3 (st : FS) (oldP newP : List Char) (now : Nat) (np : List Nat) (n : Node)
    (pp : List Nat) (lo : Option (List Char)) (par : Node)
    (h1 : walk0 st oldP = some np) (h2 : getNode st.root np = some n) (h3 : np ≠ [])
    (h4 : walkWP st newP = some (pp, lo)) (h5 : getNode st.root pp = some par)
    (h6 : (dir_find st.root pp (lo.getD [])).isSome = true) :
    rename_file st oldP newP now = (st, -1) := by
  unfold rename_file
  rw [h1]
  dsimp only
  rw [h2]
  dsimp only
  rw [if_neg h3]
  by_cases hro1 : n.attrsOf &&& ATTR_READONLY ≠ 0
  · rw [if_pos hro1]
  rw [if_neg hro1]
  by_cases hro2 : (match getNode st.root np.dropLast with
      | some p => decide (p.attrsOf &&& ATTR_READONLY ≠ 0)
      | none => false) = true
  · rw [if_pos hro2]
  rw [if_neg hro2]
  rw [h4]
  dsimp only
  rw [h5]
  dsimp only
  by_cases hdir : ¬ par.isDir
  · rw [if_pos hdir]
  rw [if_neg hdir]
  by_cases hro3 : par.attrsOf &&& ATTR_READONLY ≠ 0
  · rw [if_pos hro3]
  rw [if_neg hro3]
  rw [if_pos h6]

theorem claim_C3_witness :
    rename_file ((create_file ((create_file (fs_init 0) ['x'] 1).1) ['y'] 2).1) ['x'] ['y'] 3 =
      ((create_file ((create_file (fs_init 0) ['x'] 1).1) ['y'] 2).1, -1) :=
  claim_C3 _ ['x'] ['y'] 3 _ _ _ _ _ rfl rfl (by decide) rfl rfl rfl

/-- C4: the path resolver's segment semantics — an empty segment list
resolves to the walk's start node (the root for an absolute path), `.` is
a no-op, `..` moves to the parent and clamps at the root, and a non-final
segment that does not resolve to an existing directory fails the whole
resolution. -/
theorem claim_C4 :
    (∀ (root : Node) (start : List Nat) (wp : Bool),
      walk_from root start [] wp = some (start, none) ∧
      walk_from root start ['/'] wp = some ([], none)) ∧
    (∀ (root : Node) (cur : List Nat) (wp : Bool) (rest : List (List Char)),
      walkSegs root cur wp (['.'] :: rest) = walkSegs root cur wp rest) ∧
    (∀ (root : Node) (cur : List Nat) (wp : Bool) (rest : List (List Char)),
      walkSegs root cur wp (['.', '.'] :: rest) = walkSegs root cur.dropLast wp rest) ∧
    (∀ (root : Node) (wp : Bool) (rest : List (List Char)),
      walkSegs root [] wp (['.', '.'] :: rest) = walkSegs root [] wp rest) ∧
    (∀ (root : Node) (cur : List Nat) (wp : Bool) (tok s : List Char) (ss : List (List Char)),
      tok ≠ ['.'] → tok ≠ ['.', '.'] → dir_find root cur tok = none →
      walkSegs root cur wp (tok :: s :: ss) = none) ∧
    (∀ (root : Node) (cur : List Nat) (wp : Bool) (tok s : List Char) (ss : List (List Char))
      (i : Nat) (c : Node),
      tok ≠ ['.'] → tok ≠ ['.', '.'] → dir_find root cur tok = some i →
      getNode root (cur ++ [i]) = some c → c.isDir = false →
      walkSegs root cur wp (tok :: s :: ss) = none) := by
  refine ⟨fun root start wp => ⟨rfl, rfl⟩, fun root cur wp rest => rfl,
    fun root cur wp rest => rfl, fun root wp rest => rfl, ?_, ?_⟩
  · intro root cur wp tok s ss h1 h2 hf
    simp only [walkSegs]
    by_cases h0 : (tok.length = 0 ∨ NAME_MAX < tok.length)
    · rw [if_pos h0]
    rw [if_neg h0, if_neg h1, if_neg h2, hf]
  · intro root cur wp tok s ss i c h1 h2 hf hg hc
    simp only [walkSegs]
    by_cases h0 : (tok.length = 0 ∨ NAME_MAX < tok.length)
    · rw [if_pos h0]
    rw [if_neg h0, if_neg h1, if_neg h2, hf]
    dsimp only
    rw [hg]
    dsimp only
    rw [hc]
    rfl

theorem claim_C4_witness :
    walkSegs (fs_init 0).root [] false [['z'], ['w']] = none :=
  claim_C4.2.2.2.2.1 (fs_init 0).root [] false ['z'] ['w'] [] (by decide) (by decide) rfl

/-- The pure navigation part of the walk: every segment treated as a
non-final one (`.`/`..` navigate, an ordinary name must be an existing
directory).  Used to phrase properties of the final segment of a
`want_parent` walk. -/
def descend (root : Node) : List Nat → List (List Char) → Option (List Nat)
  | cur, [] => some cur
  | cur, tok :: rest =>
    if tok.length = 0 ∨ NAME_MAX < tok.length then none
    else if tok = ['.'] then descend root cur rest
    else if tok = ['.', '.'] then descend root cur.dropLast rest
    else
      match dir_find root cur tok with
      | some i =>
        match getNode root (cur ++ [i]) with
        | some c => if c.isDir then descend root (cur ++ [i]) rest else none
        | none => none
      | none => none

theorem walkSegs_append_last (root : Node) (wp : Bool) (tok : List Char) :
    ∀ (pre : List (List Char)) (cur : List Nat),
      walkSegs root cur wp (pre ++ [tok]) =
        (descend root cur pre).bind (fun c => walkSegs root c wp [tok]) := by
  intro pre
  induction pre with
  | nil => intro cur; rfl
  | cons s ss ih =>
    intro cur
    show walkSegs root cur wp (s :: (ss ++ [tok])) = _
    simp only [walkSegs, descend]
    by_cases h0 : (s.length = 0 ∨ NAME_MAX < s.length)
    · rw [if_pos h0, if_pos h0]; rfl
    rw [if_neg h0, if_neg h0]
    by_cases h1 : s = ['.']
    · rw [if_pos h1, if_pos h1]; exact ih cur
    rw [if_neg h1, if_neg h1]
    by_cases h2 : s = ['.', '.']
    · rw [if_pos h2, if_pos h2]; exact ih cur.dropLast
    rw [if_neg h2, if_neg h2]
    cases hss : ss ++ [tok] with
    | nil => simp at hss
    | cons hd tl =>
      dsimp only
      cases hf : dir_find root cur s with
      | none => rfl
      | some i =>
        dsimp only
        cases hg : getNode root (cur ++ [i]) with
        | none => rfl
        | some c =>
          dsimp only
          by_cases hc : c.isDir
          · rw [if_pos hc, if_pos hc, ← hss]
            exact ih (cur ++ [i])
          · rw [if_neg hc, if_neg hc]
            rfl

/-- C5 (amended): in `want_parent` mode, after the prefix of the path has
navigated to directory `c`, a final segment of length 0 or more than 32
bytes fails; a final `.` or `..` is treated as navigation and yields no
leaf name; and every other final segment of length 1..32 is returned as
the leaf together with `c`, without any requirement that a child of that
name exist. -/
theorem claim_C5 (root : Node) (cur : List Nat) (pre : List (List Char)) (tok : List Char)
    (c : List Nat) (hpre : descend root cur pre = some c) :
    ((tok.length = 0 ∨ NAME_MAX < tok.length) →
      walkSegs root cur true (pre ++ [tok]) = none) ∧
    (tok = ['.'] → walkSegs root cur true (pre ++ [tok]) = some (c, none)) ∧
    (tok = ['.', '.'] → walkSegs root cur true (pre ++ [tok]) = some (c.dropLast, none)) ∧
    (tok ≠ ['.'] → tok ≠ ['.', '.'] → 0 < tok.length → tok.length ≤ NAME_MAX →
      walkSegs root cur true (pre ++ [tok]) = some (c, some tok)) := by
  rw [walkSegs_append_last root true tok pre cur, hpre]
  refine ⟨?_, ?_, ?_, ?_⟩
  · intro h0
    simp only [Option.some_bind, walkSegs]
    rw [if_pos h0]
  · intro h1
    subst h1
    rfl
  · intro h2
    subst h2
    rfl
  · intro h1 h2 hlo hhi
    simp only [Option.some_bind, walkSegs]
    rw [if_neg (by omega : ¬ (tok.length = 0 ∨ NAME_MAX < tok.length)), if_neg h1, if_neg h2]
    rfl

theorem claim_C5_witness :
    walkSegs (fs_init 0).root [] true [List.replicate 33 'a'] = none ∧
    walkSegs (fs_init 0).root [] true [['f']] = some ([], some ['f']) :=
  ⟨(claim_C5 (fs_init 0).root [] [] (List.replicate 33 'a') [] rfl).1 (by decide),
    (claim_C5 (fs_init 0).root [] [] ['f'] [] rfl).2.2.2
      (by decide) (by decide) (by decide) (by decide)⟩

/-- C5 counterexample: the resolver accepts a 32-byte final segment in
`want_parent` mode (the claim says lengths above 31 are rejected), and a
final `.` is not rejected but resolved as navigation with no leaf name. -/
theorem claim_C5_cex :
    walk_from (fs_init 0).root [] (List.replicate 32 'a') true
      = some ([], some (List.replicate 32 'a')) ∧
    (List.replicate 32 'a').length = 32 ∧
    walk_from (fs_init 0).root [] ['.'] true = some ([], none) :=
  ⟨rfl, rfl, rfl⟩

/-- C6: `create_file` fails (with the state untouched) when the resolved
parent is missing, is not a directory, or is read-only, when the leaf name
is empty / `.` / `..` / over-long, or when a same-named entry exists; on
success it appends a fresh file node to the parent and stamps the parent's
modified and accessed times. -/
theorem claim_C6 (st : FS) (path : List Char) (now : Nat) :
    (walkWP st path = none → create_file st path now = (st, -1)) ∧
    (∀ pp lo, walkWP st path = some (pp, lo) →
      (getNode st.root pp = none → create_file st path now = (st, -1)) ∧
      (∀ n, getNode st.root pp = some n → n.isDir = false →
        create_file st path now = (st, -1)) ∧
      (∀ nm md cs, getNode st.root pp = some (.dir nm md cs) →
        ((lo.getD [] = [] ∨ lo.getD [] = ['.'] ∨ lo.getD [] = ['.', '.'] ∨
            NAME_MAX < (lo.getD []).length) →
          create_file st path now = (st, -1)) ∧
        ((dir_find st.root pp (lo.getD [])).isSome = true →
          create_file st path now = (st, -1)) ∧
        (md.attributes &&& ATTR_READONLY ≠ 0 → create_file st path now = (st, -1)) ∧
        ((create_file st path now).2 = 0 →
          (create_file st path now).1 =
            ⟨updAt st.root pp (fun _ => .dir nm ⟨md.created, now, now, md.attributes⟩
                (cs ++ [.file (lo.getD []) ⟨now, now, now, 0⟩ 0 []])),
              st.cwd, st.fds⟩))) := by
  constructor
  · intro h
    unfold create_file
    rw [h]
  · intro pp lo hwp
    refine ⟨?_, ?_, ?_⟩
    · intro h
      unfold create_file
      rw [hwp]
      dsimp only
      rw [h]
    · intro n hn hd
      unfold create_file
      rw [hwp]
      dsimp only
      rw [hn]
      cases n with
      | dir nm md cs => simp [Node.isDir] at hd
      | file nm md sz d => rfl
    · intro nm md cs hdir
      refine ⟨?_, ?_, ?_, ?_⟩
      · intro hbad
        unfold create_file
        rw [hwp]
        dsimp only
        rw [hdir]
        dsimp only
        repeat' split
        all_goals try rfl
        all_goals simp_all
      · intro hdup
        unfold create_file
        rw [hwp]
        dsimp only
        rw [hdir]
        dsimp only
        repeat' split
        all_goals try rfl
      · intro hro
        unfold create_file
        rw [hwp]
        dsimp only
        rw [hdir]
        dsimp only
        repeat' split
        all_goals try rfl
      · intro h0
        revert h0
        unfold create_file
        rw [hwp]
        dsimp only
        rw [hdir]
        dsimp only
        simp only [node_new]
        repeat' split
        all_goals intro h0
        all_goals first
          | (rw [List.take_of_length_le (by omega)]; try rfl)
          | simp at h0

theorem claim_C6_witness :
    create_file (fs_init 0) ['.'] 7 = (fs_init 0, -1) ∧
    (create_file (fs_init 0) ['f'] 7).1 =
      ⟨updAt (fs_init 0).root [] (fun _ => .dir [] ⟨0, 7, 7, 0⟩
          ([] ++ [.file ['f'] ⟨7, 7, 7, 0⟩ 0 []])), (fs_init 0).cwd, (fs_init 0).fds⟩ :=
  ⟨((((claim_C6 (fs_init 0) ['.'] 7).2 [] none rfl).2.2 [] ⟨0, 0, 0, 0⟩ [] rfl).1 (Or.inl rfl)),
    ((((claim_C6 (fs_init 0) ['f'] 7).2 [] (some ['f']) rfl).2.2 [] ⟨0, 0, 0, 0⟩ [] rfl).2.2.2 rfl)⟩

/-- C7 (amended): `node_new` never rejects a name — a name longer than
32 bytes is silently truncated to its first 32 bytes (callers enforce the
length bound, `node_new` itself does not) — and the returned node always
has a cleared attribute bitset and created/modified/accessed all equal to
the current time. -/
theorem claim_C7 (t : NType) (nm : List Char) (now : Nat) :
    ∃ n, node_new t nm now = some n ∧ n.nameOf = nm.take NAME_MAX ∧ n.attrsOf = 0 ∧
      n.mdOf.created = now ∧ n.mdOf.modified = now ∧ n.mdOf.accessed = now := by
  cases t <;> exact ⟨_, rfl, rfl, rfl, rfl, rfl, rfl⟩

/-- C7 counterexample: for a 33-byte name (over any reading of the bound)
`node_new` does not fail — it returns a node, whose name is the 32-byte
truncation. -/
theorem claim_C7_cex :
    node_new .nDir (List.replicate 33 'a') 0 ≠ none ∧
    (List.replicate 33 'a').length = 33 ∧
    node_new .nDir (List.replicate 33 'a') 0 =
      some (.dir (List.replicate 32 'a') ⟨0, 0, 0, 0⟩ []) := by
  refine ⟨?_, rfl, rfl⟩
  intro h
  simp [node_new] at h

theorem firstFree_none (fds : List FDEnt)
    (h : ∀ i e, i < MAX_OPEN_FILES → fds[i]? = some e → e.inUse = true) :
    firstFree fds = none := by
  unfold firstFree
  rw [List.findIdx?_eq_none_iff]
  intro e he
  obtain ⟨i, hlt, hieq⟩ := List.getElem_of_mem he
  have h2 : (fds.take MAX_OPEN_FILES)[i]? = some e := by
    rw [List.getElem?_eq_getElem hlt, hieq]
  rw [List.getElem?_take] at h2
  split at h2
  · have he2 := h i e (by assumption) h2
    simp [he2]
  · exact absurd h2 (by simp)

/-- C8: opening a read-only file with a mode that includes write
capability fails with the state (descriptor table included) untouched; a
successful open returns the index of the first Free slot, whose cursor is
0 and which stores the mode and node; and the call fails whenever all 32
slots are occupied. -/
theorem claim_C8 :
    (∀ st path flags now np n,
      walk0 st path = some np → getNode st.root np = some n → n.isFile = true →
      flags &&& O_WRONLY ≠ 0 → n.attrsOf &&& ATTR_READONLY ≠ 0 →
      fs_open st path flags now = (st, -1)) ∧
    (∀ st path flags now, 0 ≤ (fs_open st path flags now).2 →
      ∃ np, walk0 st path = some np ∧
        firstFree st.fds = some (fs_open st path flags now).2.toNat ∧
        (fs_open st path flags now).1.fds =
          st.fds.set (fs_open st path flags now).2.toNat ⟨np, 0, flags, true⟩) ∧
    (∀ st path flags now,
      (∀ i e, i < MAX_OPEN_FILES → st.fds[i]? = some e → e.inUse = true) →
      (fs_open st path flags now).2 = -1) := by
  refine ⟨?_, ?_, ?_⟩
  · intro st path flags now np n h1 h2 hfile hw hro
    unfold fs_open
    rw [h1]
    dsimp only
    rw [h2]
    dsimp only
    rw [if_neg (by simp [hfile]), if_pos ⟨Or.inl hw, hro⟩]
  · intro st path flags now h
    rcases hres : fs_open st path flags now with ⟨st2, r⟩
    rw [hres] at h
    have hr : 0 ≤ r := h
    show ∃ np, _ ∧ firstFree st.fds = some r.toNat ∧ st2.fds = st.fds.set r.toNat _
    unfold fs_open at hres
    repeat' split at hres
    all_goals injection hres with e1 e2
    all_goals try (exfalso; omega)
    subst e1
    refine ⟨_, by assumption, ?_, ?_⟩
    · rw [← e2, Int.toNat_natCast]
      assumption
    · rw [← e2, Int.toNat_natCast]
  · intro st path flags now hall
    have hff := firstFree_none st.fds hall
    unfold fs_open
    repeat' split
    all_goals first
      | rfl
      | simp_all

theorem claim_C8_witness :
    fs_open ((set_file_attributes ((create_file (fs_init 0) ['f'] 1).1) ['f'] 2 3).1)
        ['f'] O_WRONLY 4 =
      ((set_file_attributes ((create_file (fs_init 0) ['f'] 1).1) ['f'] 2 3).1, -1) ∧
    (fs_open ⟨(fs_init 0).root, [], List.replicate 32 ⟨[], 0, 1, true⟩⟩ ['f'] 1 9).2 = -1 :=
  ⟨claim_C8.1 _ ['f'] O_WRONLY 4 _ _ rfl rfl rfl (by decide) (by decide),
    claim_C8.2.2 _ ['f'] 1 9 (by
      intro i e hi he
      rw [List.getElem?_replicate] at he
      split at he
      · cases he
        rfl
      · exact absurd he (by simp))⟩

/-- The state used to exhibit the `fs_read_fd` mode-check bug: a file
`/f` holding 2 bytes, opened with `O_WRONLY`, so descriptor 0 has a mode
without read capability. -/
def stC9 : FS :=
  (fs_open ((write_file ((create_file (fs_init 0) ['f'] 1).1) ['f'] 0 [72, 105] 2).1)
    ['f'] O_WRONLY 3).1

/-- C9, failing input: descriptor 0 of `stC9` was opened write-only
(mode `O_WRONLY`, which lacks the `O_RDONLY` bit), yet `fs_read_fd`
succeeds and returns the file's 2 bytes instead of failing.  The check
`!(flags & O_RDONLY) && !(flags & O_RDWR)` in the source accepts any mode
with a low bit set — `O_WRONLY & O_RDWR` is nonzero — contradicting its
own comment "Check if file is open for reading". -/
theorem claim_C9_bug :
    (stC9.fds[0]?).map FDEnt.flags = some O_WRONLY ∧
    O_WRONLY &&& O_RDONLY = 0 ∧
    (fs_read_fd stC9 0 5 6).2.1 = 2 ∧
    (fs_read_fd stC9 0 5 6).2.2 = [72, 105] :=
  ⟨rfl, rfl, rfl, rfl⟩

/-- C10: `set_file_attributes` and `touch_file` apply no read-only gate —
they succeed on any resolvable node, read-only or not; the former replaces
the bitset wholesale (so it is the way a read-only flag is cleared), and
the content-writing and touch operations never change any node's
attribute bitset. -/
theorem claim_C10 :
    (∀ st path bits now np n, walk0 st path = some np → getNode st.root np = some n →
      (set_file_attributes st path bits now).2 = 0 ∧
      (getNode (set_file_attributes st path bits now).1.root np).map Node.attrsOf =
        some (bits % 256)) ∧
    (∀ st path now np n, walk0 st path = some np → getNode st.root np = some n →
      (touch_file st path now).2 = 0 ∧
      (getNode (touch_file st path now).1.root np).map Node.attrsOf = some n.attrsOf) ∧
    (∀ st path off b now q,
      (getNode (write_file st path off b now).1.root q).map Node.attrsOf =
        (getNode st.root q).map Node.attrsOf) ∧
    (∀ st fd b now q,
      (getNode (fs_write_fd st fd b now).1.root q).map Node.attrsOf =
        (getNode st.root q).map Node.attrsOf) ∧
    (∀ st path now q,
      (getNode (touch_file st path now).1.root q).map Node.attrsOf =
        (getNode st.root q).map Node.attrsOf) := by
  refine ⟨?_, ?_, write_file_attrs, fs_write_fd_attrs, touch_file_attrs⟩
  · intro st path bits now np n h1 h2
    unfold set_file_attributes
    rw [h1]
    dsimp only
    rw [h2]
    dsimp only
    refine ⟨rfl, ?_⟩
    rw [getNode_updAt_self _ _ _ _ h2, Option.map_some']
    cases n <;> rfl
  · intro st path now np n h1 h2
    unfold touch_file
    rw [h1]
    dsimp only
    rw [h2]
    dsimp only
    refine ⟨rfl, ?_⟩
    rw [getNode_updAt_self _ _ _ _ h2, Option.map_some']
    cases n <;> rfl

theorem claim_C10_witness :
    (set_file_attributes ((set_file_attributes ((create_file (fs_init 0) ['f'] 1).1)
        ['f'] 2 3).1) ['f'] 0 9).2 = 0 ∧
    (getNode (set_file_attributes ((set_file_attributes ((create_file (fs_init 0) ['f'] 1).1)
        ['f'] 2 3).1) ['f'] 0 9).1.root [0]).map Node.attrsOf = some 0 ∧
    (getNode ((set_file_attributes ((create_file (fs_init 0) ['f'] 1).1)
        ['f'] 2 3).1).root [0]).map Node.attrsOf = some 2 :=
  have h := claim_C10.1 ((set_file_attributes ((create_file (fs_init 0) ['f'] 1).1)
    ['f'] 2 3).1) ['f'] 0 9 [0] (Node.file ['f'] ⟨1, 3, 1, 2⟩ 0 []) rfl rfl
  ⟨h.1, h.2, rfl⟩

theorem claim_C1_witness :
    (read_file (write_file ((create_file (fs_init 0) ['f'] 1).1) ['f'] 0 [72, 105] 2).1
        ['f'] 0 2 3).2.1 = 2 ∧
    (read_file (write_file ((create_file (fs_init 0) ['f'] 1).1) ['f'] 0 [72, 105] 2).1
        ['f'] 0 2 3).2.2 = [72, 105] :=
  claim_C1 ((create_file (fs_init 0) ['f'] 1).1) ['f'] 0 [72, 105] 2 3 rfl
